import Mathlib

/-!
# Framed Subprocess Message Harness — verification

A shallow embedding of the framed-message harness of this repository:
the decode loop of `read_json_from_process` and the facade
`run_edgelink` from src/tests/__init__.py, together with the earlier
revision of the decode loop from src/scripts/json-console-test.py.
The standard output of the child process is modelled as a list of read
events (each read has a duration and a line, the empty line standing
for end of stream), `json.loads` as an arbitrary partial function
`loads` into an arbitrary type of JSON values, and the observable
behaviour of an invocation as a trace of yield/signal/wait/kill events
together with an outcome.
-/

namespace RustRed

/-- The record-separator control character U+001E used as frame lead. -/
def rs : Char := '\x1E'

/-- The line-feed character terminating a frame. -/
def nl : Char := '\n'

/-- The Python call `s.split(sep, 1)` when `sep` occurs in `s`: returns the part
before the first occurrence and the part after it; `none` when `sep` does
not occur (modelling the `sep in s` membership test guarding the split). -/
def splitFirst (c : Char) : List Char → Option (List Char × List Char)
  | [] => none
  | a :: t =>
    if a = c then some ([], t)
    else
      match splitFirst c t with
      | none => none
      | some (x, y) => some (a :: x, y)

theorem splitFirst_eq_none_iff (c : Char) (s : List Char) :
    splitFirst c s = none ↔ c ∉ s := by
  induction s with
  | nil => simp [splitFirst]
  | cons a t ih =>
    simp only [splitFirst, List.mem_cons]
    by_cases h : a = c
    · simp [h]
    · cases hs : splitFirst c t with
      | none =>
        rw [hs] at ih
        simp only [h, if_false]
        constructor
        · intro _ hc
          rcases hc with hc | hc
          · exact h hc.symm
          · exact (ih.mp rfl) hc
        · intro _; trivial
      | some p =>
        rw [hs] at ih
        obtain ⟨x, y⟩ := p
        simp only [h, if_false]
        constructor
        · intro hcontra; exact absurd hcontra (by simp)
        · intro hc
          exfalso
          apply hc
          right
          by_contra hct
          exact absurd (ih.mpr hct) (by simp)

theorem splitFirst_structure {c : Char} {s x y : List Char}
    (h : splitFirst c s = some (x, y)) : s = x ++ c :: y ∧ c ∉ x := by
  induction s generalizing x y with
  | nil => simp [splitFirst] at h
  | cons a t ih =>
    simp only [splitFirst] at h
    by_cases hac : a = c
    · simp only [hac, if_true] at h
      obtain ⟨hx, hy⟩ := Prod.mk.injEq .. ▸ (Option.some.injEq .. ▸ h)
      subst hac
      constructor
      · rw [← hx, ← hy]; rfl
      · rw [← hx]; simp
    · simp only [hac, if_false] at h
      cases hs : splitFirst c t with
      | none => rw [hs] at h; simp at h
      | some p =>
        obtain ⟨x', y'⟩ := p
        rw [hs] at h
        simp only [Option.some.injEq, Prod.mk.injEq] at h
        obtain ⟨hx, hy⟩ := h
        obtain ⟨ht, hcx⟩ := ih hs
        subst hy
        constructor
        · rw [← hx, ht]; rfl
        · rw [← hx]
          simp only [List.mem_cons]
          rintro (hc | hc)
          · exact hac hc.symm
          · exact hcx hc

theorem splitFirst_of_not_mem_left {c : Char} {a : List Char} (b : List Char)
    (h : c ∉ a) : splitFirst c (a ++ c :: b) = some (a, b) := by
  induction a with
  | nil => simp [splitFirst]
  | cons x t ih =>
    simp only [List.mem_cons, not_or] at h
    simp only [List.cons_append, splitFirst]
    rw [if_neg (fun hx => h.1 hx.symm)]
    simp only [List.append_eq]
    rw [ih h.2]

theorem splitFirst_append_left {c : Char} {s x y : List Char} (t : List Char)
    (h : splitFirst c s = some (x, y)) :
    splitFirst c (s ++ t) = some (x, y ++ t) := by
  obtain ⟨hs, hcx⟩ := splitFirst_structure h
  rw [hs]
  have : (x ++ c :: y) ++ t = x ++ c :: (y ++ t) := by simp
  rw [this]
  exact splitFirst_of_not_mem_left _ hcx

theorem splitFirst_append_of_not_mem {c : Char} {s : List Char} (t : List Char)
    (h : c ∉ s) :
    splitFirst c (s ++ t) = (splitFirst c t).map (fun p => (s ++ p.1, p.2)) := by
  induction s with
  | nil => simp [Option.map]; cases splitFirst c t <;> simp
  | cons a u ih =>
    simp only [List.mem_cons, not_or] at h
    simp only [List.cons_append, splitFirst]
    rw [if_neg (fun hx => h.1 hx.symm)]
    simp only [List.append_eq]
    rw [ih h.2]
    cases splitFirst c t with
    | none => simp
    | some p => simp

theorem splitFirst_length {c : Char} {s x y : List Char}
    (h : splitFirst c s = some (x, y)) : s.length = x.length + 1 + y.length := by
  obtain ⟨hs, _⟩ := splitFirst_structure h
  rw [hs]
  simp
  omega

theorem splitFirst_snd_length_lt {c : Char} {s x y : List Char}
    (h : splitFirst c s = some (x, y)) : y.length < s.length := by
  have := splitFirst_length h
  omega

/-- One pass of the body of the inner `while '\x1E' in buffer` loop of
`read_json_from_process`, up to the point where a candidate payload is
handed to `json.loads`: split the buffer at the first record separator,
discarding the part before it, and split the rest at the first line
terminator.  `some (payload, newBuffer)` when a complete frame is
present; `none` when the loop exits (no separator, or a separator not
yet followed by a terminator — the buffer is then left untouched, via
`break`, so that the next read can complete the frame). -/
def scanStep (buf : List Char) : Option (List Char × List Char) :=
  match splitFirst rs buf with
  | none => none
  | some (_start, rest) =>
    match splitFirst nl rest with
    | none => none
    | some (p, b2) => some (p, b2)

theorem scanStep_length {buf p b2 : List Char} (h : scanStep buf = some (p, b2)) :
    b2.length < buf.length := by
  unfold scanStep at h
  cases h1 : splitFirst rs buf with
  | none => rw [h1] at h; simp at h
  | some q =>
    obtain ⟨s, r⟩ := q
    rw [h1] at h
    dsimp only at h
    cases h2 : splitFirst nl r with
    | none => rw [h2] at h; simp at h
    | some q2 =>
      obtain ⟨p2, b3⟩ := q2
      rw [h2] at h
      simp only [Option.some.injEq, Prod.mk.injEq] at h
      obtain ⟨_, rfl⟩ := h
      have := splitFirst_snd_length_lt h1
      have := splitFirst_snd_length_lt h2
      omega

theorem scanStep_append {buf p b2 : List Char} (ex : List Char)
    (h : scanStep buf = some (p, b2)) :
    scanStep (buf ++ ex) = some (p, b2 ++ ex) := by
  unfold scanStep at h ⊢
  cases h1 : splitFirst rs buf with
  | none => rw [h1] at h; simp at h
  | some q =>
    obtain ⟨s, r⟩ := q
    rw [h1] at h
    dsimp only at h
    cases h2 : splitFirst nl r with
    | none => rw [h2] at h; simp at h
    | some q2 =>
      obtain ⟨p2, b3⟩ := q2
      rw [h2] at h
      simp only [Option.some.injEq, Prod.mk.injEq] at h
      obtain ⟨rfl, rfl⟩ := h
      rw [splitFirst_append_left ex h1]
      dsimp only
      rw [splitFirst_append_left ex h2]

/-- The decomposition `scanStep` performs on a buffer that starts with
(possibly empty) separator-free noise followed by a complete frame. -/
theorem scanStep_frame (junk p tail : List Char)
    (hjunk : rs ∉ junk) (hp : nl ∉ p) :
    scanStep (junk ++ (rs :: (p ++ nl :: tail))) = some (p, tail) := by
  unfold scanStep
  rw [splitFirst_of_not_mem_left _ hjunk]
  dsimp only
  rw [splitFirst_of_not_mem_left _ hp]

end RustRed

namespace RustRed

/-- The cooperative-cancellation signals sent by the shutdown coordinator. -/
inductive Sig where
  | sigint
  | ctrlBreakEvent
  deriving DecidableEq, Repr

/-- Observable actions performed by `read_json_from_process` and its callers,
in program order: yielding a decoded message, sending a signal to the child,
awaiting the exit of the child (`process.wait()`), and force-killing the child
(`process.kill()`). -/
inductive Event (J : Type) where
  | yield (j : J)
  | signal (s : Sig)
  | waitChild
  | kill
  deriving DecidableEq, Repr

/-- The cooperative-cancellation signal chosen by the code:
CTRL_BREAK_EVENT when `platform.system() == "Windows"`, SIGINT otherwise. -/
def sigFor (win : Bool) : Sig :=
  if win then .ctrlBreakEvent else .sigint

/-- Result of one run of the inner `while '\x1E' in buffer` scan loop of
`read_json_from_process`:
* `more buffer counter events` — the loop exited (no separator, or separator
  with no terminator yet), with the updated buffer and counter, having
  performed `events`; the outer loop awaits the next read.
* `done events` — `counter >= nexpected` was reached: the signal was sent,
  the child awaited, and the generator returned.
* `failed events` — `json.loads` raised `JSONDecodeError`, which the
  generator re-raises. -/
inductive ScanResult (J : Type) where
  | more (buffer : List Char) (counter : Nat) (events : List (Event J))
  | done (events : List (Event J))
  | failed (events : List (Event J))
  deriving DecidableEq, Repr

/-- `.prepend evs r` prefixes the events of a scan result with `evs`;
this is how the recursive arm of the inner loop accumulates the
`yield` of the current frame in front of the rest of the scan. -/
def ScanResult.prepend {J : Type} (evs : List (Event J)) : ScanResult J → ScanResult J
  | .more b c e2 => .more b c (evs ++ e2)
  | .done e2 => .done (evs ++ e2)
  | .failed e2 => .failed (evs ++ e2)

/-- The inner scan loop of `read_json_from_process` (src/tests/__init__.py,
lines 52-73): while the buffer contains a complete frame (`scanStep`),
remove it, parse its payload with `loads` (modelling `json.loads`),
increment the counter and yield on success; once `counter >= nexpected`,
send the platform signal, wait for the child and return.  A parse
failure re-raises the `JSONDecodeError`.  `win` is the
`platform.system() == "Windows"` test. -/
def innerScan {J : Type} (loads : List Char → Option J) (win : Bool)
    (nexpected : Nat) (buffer : List Char) (counter : Nat) : ScanResult J :=
  match hs : scanStep buffer with
  | none => .more buffer counter []
  | some (jsonStr, buffer') =>
    match loads jsonStr with
    | none => .failed []
    | some obj =>
      if nexpected ≤ counter + 1 then
        .done [.yield obj, .signal (sigFor win), .waitChild]
      else
        match innerScan loads win nexpected buffer' (counter + 1) with
        | .more b c evs => .more b c (.yield obj :: evs)
        | .done evs => .done (.yield obj :: evs)
        | .failed evs => .failed (.yield obj :: evs)
termination_by buffer.length
decreasing_by
  exact scanStep_length hs

theorem innerScan_of_stuck {J : Type} (loads : List Char → Option J) (win : Bool)
    (n : Nat) {buf : List Char} (c : Nat) (h : scanStep buf = none) :
    innerScan loads win n buf c = .more buf c [] := by
  rw [innerScan, h]

theorem innerScan_of_bad {J : Type} (loads : List Char → Option J) (win : Bool)
    (n : Nat) {buf j b2 : List Char} (c : Nat) (h : scanStep buf = some (j, b2))
    (h3 : loads j = none) :
    innerScan loads win n buf c = .failed [] := by
  rw [innerScan, h]
  simp only [h3]

theorem innerScan_of_reach {J : Type} (loads : List Char → Option J) (win : Bool)
    (n : Nat) {buf j b2 : List Char} (c : Nat) {v : J}
    (h : scanStep buf = some (j, b2)) (h3 : loads j = some v) (h4 : n ≤ c + 1) :
    innerScan loads win n buf c =
      .done [.yield v, .signal (sigFor win), .waitChild] := by
  rw [innerScan, h]
  simp only [h3, if_pos h4]

theorem innerScan_of_step {J : Type} (loads : List Char → Option J) (win : Bool)
    (n : Nat) {buf j b2 : List Char} (c : Nat) {v : J}
    (h : scanStep buf = some (j, b2)) (h3 : loads j = some v) (h4 : ¬n ≤ c + 1) :
    innerScan loads win n buf c =
      (innerScan loads win n b2 (c + 1)).prepend [.yield v] := by
  rw [innerScan, h]
  simp only [h3, if_neg h4]
  cases innerScan loads win n b2 (c + 1) <;> rfl

/-- The inner scan loop of the earlier revision of the harness,
`read_json_from_process` in src/scripts/json-console-test.py (lines
44-65): identical to `innerScan` except that a `json.JSONDecodeError`
is caught and printed and the scan continues with the already-advanced
buffer, the counter unchanged. -/
def innerScanSkip {J : Type} (loads : List Char → Option J) (win : Bool)
    (nexpected : Nat) (buffer : List Char) (counter : Nat) : ScanResult J :=
  match hs : scanStep buffer with
  | none => .more buffer counter []
  | some (jsonStr, buffer') =>
    match loads jsonStr with
    | none => innerScanSkip loads win nexpected buffer' counter
    | some obj =>
      if nexpected ≤ counter + 1 then
        .done [.yield obj, .signal (sigFor win), .waitChild]
      else
        match innerScanSkip loads win nexpected buffer' (counter + 1) with
        | .more b c evs => .more b c (.yield obj :: evs)
        | .done evs => .done (.yield obj :: evs)
        | .failed evs => .failed (.yield obj :: evs)
termination_by buffer.length
decreasing_by
  all_goals exact scanStep_length hs

theorem innerScanSkip_of_stuck {J : Type} (loads : List Char → Option J) (win : Bool)
    (n : Nat) {buf : List Char} (c : Nat) (h : scanStep buf = none) :
    innerScanSkip loads win n buf c = .more buf c [] := by
  rw [innerScanSkip, h]

theorem innerScanSkip_of_bad {J : Type} (loads : List Char → Option J) (win : Bool)
    (n : Nat) {buf j b2 : List Char} (c : Nat) (h : scanStep buf = some (j, b2))
    (h3 : loads j = none) :
    innerScanSkip loads win n buf c = innerScanSkip loads win n b2 c := by
  rw [innerScanSkip, h]
  simp only [h3]

theorem innerScanSkip_of_reach {J : Type} (loads : List Char → Option J) (win : Bool)
    (n : Nat) {buf j b2 : List Char} (c : Nat) {v : J}
    (h : scanStep buf = some (j, b2)) (h3 : loads j = some v) (h4 : n ≤ c + 1) :
    innerScanSkip loads win n buf c =
      .done [.yield v, .signal (sigFor win), .waitChild] := by
  rw [innerScanSkip, h]
  simp only [h3, if_pos h4]

theorem innerScanSkip_of_step {J : Type} (loads : List Char → Option J) (win : Bool)
    (n : Nat) {buf j b2 : List Char} (c : Nat) {v : J}
    (h : scanStep buf = some (j, b2)) (h3 : loads j = some v) (h4 : ¬n ≤ c + 1) :
    innerScanSkip loads win n buf c =
      (innerScanSkip loads win n b2 (c + 1)).prepend [.yield v] := by
  rw [innerScanSkip, h]
  simp only [h3, if_neg h4]
  cases innerScanSkip loads win n b2 (c + 1) <;> rfl

/-- One `await asyncio.wait_for(process.stdout.readline(), timeout=8)`:
the read completes after `dur` time units with `line` (the empty line
models the end-of-stream return value, an empty line).  A read whose duration
exceeds the bound is observed by the harness as `asyncio.TimeoutError`. -/
structure ReadEvent where
  dur : Nat
  line : List Char
  deriving DecidableEq, Repr

/-- The fixed per-read inactivity bound, `timeout=8`. -/
def timeoutBound : Nat := 8

/-- How one invocation of `read_json_from_process` terminates:
* `normal` — the output stream closed (`if not line: break`) and the
  trailing `await process.wait()` ran; the generator finished.
* `reached` — `counter >= nexpected`: the signal/wait path returned.
* `decodeError` — `json.JSONDecodeError` was re-raised.
* `stallTimeout` — `asyncio.TimeoutError` was re-raised. -/
inductive Outcome where
  | normal
  | reached
  | decodeError
  | stallTimeout
  deriving DecidableEq, Repr

/-- The observable result of running the collector loop: the events it
performed, how it ended, and the read events it never consumed. -/
structure RunOut (J : Type) where
  trace : List (Event J)
  outcome : Outcome
  remaining : List ReadEvent
  deriving DecidableEq, Repr

/-- The outer `while True` read loop of `read_json_from_process`
(src/tests/__init__.py, lines 45-76): await the next line under the
8-unit timeout, break on end of stream (then `await process.wait()`),
otherwise append the line to the buffer and run the inner scan loop.
Exhaustion of `events` is also end of stream: a closed pipe keeps
returning empty lines. -/
def runLoop {J : Type} (loads : List Char → Option J) (win : Bool)
    (nexpected : Nat) : List ReadEvent → List Char → Nat → RunOut J
  | [], _buf, _c => ⟨[.waitChild], .normal, []⟩
  | e :: es, buf, c =>
    if timeoutBound < e.dur then ⟨[], .stallTimeout, es⟩
    else if e.line = [] then ⟨[.waitChild], .normal, es⟩
    else
      match innerScan loads win nexpected (buf ++ e.line) c with
      | .more b c2 evs =>
        let r := runLoop loads win nexpected es b c2
        ⟨evs ++ r.trace, r.outcome, r.remaining⟩
      | .done evs => ⟨evs, .reached, es⟩
      | .failed evs => ⟨evs, .decodeError, es⟩

/-- `read_json_from_process(process, nexpected)` run against the stream
of read events `events`: buffer starts empty, counter at zero. -/
def read_json_from_process {J : Type} (loads : List Char → Option J) (win : Bool)
    (nexpected : Nat) (events : List ReadEvent) : RunOut J :=
  runLoop loads win nexpected events [] 0

/-- The two ways a facade invocation can raise. -/
inductive RunError where
  | decodeError
  | stallTimeout
  deriving DecidableEq, Repr

/-- Observable result of a facade invocation: the event trace and either
the collected message list or the propagated error. -/
structure FacadeOut (J : Type) where
  trace : List (Event J)
  result : Except RunError (List J)
  deriving Repr

/-- The messages yielded along a trace, in order. -/
def yields {J : Type} (tr : List (Event J)) : List J :=
  tr.filterMap fun e =>
    match e with
    | .yield j => some j
    | _ => none

/-- `run_edgelink(flows_path, nexpected)` (src/tests/__init__.py,
lines 102-114): append every yielded message, return the list on normal
generator exit; on any exception, `process.kill()`, `await process.wait()`
and re-raise.  `run_edgelink_with_json_object` collects identically. -/
def run_edgelink {J : Type} (loads : List Char → Option J) (win : Bool)
    (nexpected : Nat) (events : List ReadEvent) : FacadeOut J :=
  let r := read_json_from_process loads win nexpected events
  match r.outcome with
  | .normal => ⟨r.trace, .ok (yields r.trace)⟩
  | .reached => ⟨r.trace, .ok (yields r.trace)⟩
  | .decodeError => ⟨r.trace ++ [.kill, .waitChild], .error .decodeError⟩
  | .stallTimeout => ⟨r.trace ++ [.kill, .waitChild], .error .stallTimeout⟩

/-- A complete frame on the wire: the record separator, the payload,
the line terminator. -/
def frame (p : List Char) : List Char := rs :: p ++ [nl]

/-- The concatenation of the frames of the payloads `ps`, in order. -/
def framedStream (ps : List (List Char)) : List Char := (ps.map frame).flatten

/-- Chunks delivered as prompt reads (duration 0, within the bound). -/
def chunkReads (cs : List (List Char)) : List ReadEvent :=
  cs.map fun l => ⟨0, l⟩

/-- Whether a buffer still contains a complete frame: a record separator
followed, later, by a line terminator. -/
def hasCompleteFrame (b : List Char) : Bool :=
  match splitFirst rs b with
  | none => false
  | some (_s, r) => (splitFirst nl r).isSome

/-- Whether an event is a message yield. -/
def isYield {J : Type} : Event J → Bool
  | .yield _ => true
  | _ => false

/-- Whether an event is a cancellation signal. -/
def isSignal {J : Type} : Event J → Bool
  | .signal _ => true
  | _ => false

theorem ScanResult.prepend_nil {J : Type} (r : ScanResult J) :
    r.prepend [] = r := by
  cases r <;> simp [ScanResult.prepend]

theorem ScanResult.prepend_prepend {J : Type} (e1 e2 : List (Event J))
    (r : ScanResult J) : (r.prepend e2).prepend e1 = r.prepend (e1 ++ e2) := by
  cases r <;> simp [ScanResult.prepend]

theorem frame_append (p t : List Char) : frame p ++ t = rs :: (p ++ nl :: t) := by
  simp [frame]

theorem framedStream_cons (p : List Char) (ps : List (List Char)) :
    framedStream (p :: ps) = frame p ++ framedStream ps := by
  simp [framedStream]

theorem framedStream_nil : framedStream [] = [] := rfl

/-- Feeding data appended to a buffer is the same as first scanning the
buffer and then scanning its leftover with the new data: frames already
complete are unaffected by later data, a reached count or a decode
failure stops before the new data, and a stuck buffer resumes exactly
where it stopped.  This is the heart of split-point independence. -/
theorem innerScan_append {J : Type} (loads : List Char → Option J) (win : Bool)
    (n : Nat) (buf ex : List Char) (c : Nat) :
    innerScan loads win n (buf ++ ex) c =
      match innerScan loads win n buf c with
      | .more b c2 evs => (innerScan loads win n (b ++ ex) c2).prepend evs
      | .done evs => .done evs
      | .failed evs => .failed evs := by
  induction buf, c using innerScan.induct loads win n with
  | case1 buf c h =>
    rw [innerScan_of_stuck loads win n c h]
    exact (ScanResult.prepend_nil _).symm
  | case2 buf c j b2 h h3 =>
    rw [innerScan_of_bad loads win n c h h3,
      innerScan_of_bad loads win n c (scanStep_append ex h) h3]
  | case3 buf c j b2 h v h3 h4 =>
    rw [innerScan_of_reach loads win n c h h3 h4,
      innerScan_of_reach loads win n c (scanStep_append ex h) h3 h4]
  | case4 buf c j b2 h v h3 h4 b c2 evs hr ih =>
    rw [innerScan_of_step loads win n c h h3 h4,
      innerScan_of_step loads win n c (scanStep_append ex h) h3 h4, ih, hr]
    rcases hres : innerScan loads win n (b ++ ex) c2 with ⟨b3, c3, e3⟩ | e3 | e3 <;>
      simp [hres, ScanResult.prepend]
  | case5 buf c j b2 h v h3 h4 evs hr ih =>
    rw [innerScan_of_step loads win n c h h3 h4,
      innerScan_of_step loads win n c (scanStep_append ex h) h3 h4, ih, hr]
    simp only [ScanResult.prepend]
  | case6 buf c j b2 h v h3 h4 evs hr ih =>
    rw [innerScan_of_step loads win n c h h3 h4,
      innerScan_of_step loads win n c (scanStep_append ex h) h3 h4, ih, hr]
    simp only [ScanResult.prepend]

theorem scanStep_nil : scanStep [] = none := rfl

theorem innerScan_nil {J : Type} (loads : List Char → Option J) (win : Bool)
    (n c : Nat) : innerScan loads win n [] c = .more [] c [] :=
  innerScan_of_stuck loads win n c scanStep_nil

@[simp]
theorem yields_nil {J : Type} : yields ([] : List (Event J)) = [] := rfl

@[simp]
theorem yields_cons_yield {J : Type} (j : J) (tr : List (Event J)) :
    yields (.yield j :: tr) = j :: yields tr := rfl

@[simp]
theorem yields_cons_signal {J : Type} (s : Sig) (tr : List (Event J)) :
    yields (.signal s :: tr) = yields tr := rfl

@[simp]
theorem yields_cons_wait {J : Type} (tr : List (Event J)) :
    yields (.waitChild :: tr) = yields tr := rfl

@[simp]
theorem yields_cons_kill {J : Type} (tr : List (Event J)) :
    yields (.kill :: tr) = yields tr := rfl

@[simp]
theorem yields_append {J : Type} (a b : List (Event J)) :
    yields (a ++ b) = yields a ++ yields b := by
  simp [yields]

@[simp]
theorem yields_map_yield {J : Type} (vs : List J) :
    yields (vs.map .yield) = vs := by
  induction vs with
  | nil => rfl
  | cons v vs ih => simp [ih]

/-- `hasCompleteFrame` is exactly the question `scanStep` answers. -/
theorem hasCompleteFrame_eq_scanStep (b : List Char) :
    hasCompleteFrame b = (scanStep b).isSome := by
  unfold hasCompleteFrame scanStep
  cases h1 : splitFirst rs b with
  | none => rfl
  | some q =>
    obtain ⟨s, r⟩ := q
    dsimp only
    cases h2 : splitFirst nl r with
    | none => rfl
    | some q2 => rfl

/-- Whenever the inner scan loop exits to await more data, the buffer it
leaves behind holds no complete frame: every complete frame was removed
before the loop gave up. -/
theorem innerScan_more_stuck {J : Type} (loads : List Char → Option J) (win : Bool)
    (n : Nat) (buf : List Char) (c : Nat) :
    ∀ {b : List Char} {c2 : Nat} {evs : List (Event J)},
      innerScan loads win n buf c = .more b c2 evs → scanStep b = none := by
  induction buf, c using innerScan.induct loads win n with
  | case1 buf c hs =>
    intro b c2 evs h
    rw [innerScan_of_stuck loads win n c hs] at h
    cases h
    exact hs
  | case2 buf c j b2 hs h3 =>
    intro b c2 evs h
    rw [innerScan_of_bad loads win n c hs h3] at h
    cases h
  | case3 buf c j b2 hs v h3 h4 =>
    intro b c2 evs h
    rw [innerScan_of_reach loads win n c hs h3 h4] at h
    cases h
  | case4 buf c j b2 hs v h3 h4 b4 c4 evs4 hr ih =>
    intro b c2 evs h
    rw [innerScan_of_step loads win n c hs h3 h4, hr] at h
    cases h
    exact ih hr
  | case5 buf c j b2 hs v h3 h4 evs4 hr ih =>
    intro b c2 evs h
    rw [innerScan_of_step loads win n c hs h3 h4, hr] at h
    cases h
  | case6 buf c j b2 hs v h3 h4 evs4 hr ih =>
    intro b c2 evs h
    rw [innerScan_of_step loads win n c hs h3 h4, hr] at h
    cases h

/-- Shape of the events of one scan: a run of yields, closed — only in the
`done` case — by exactly one signal (the platform one) and one wait. -/
theorem innerScan_events_shape {J : Type} (loads : List Char → Option J) (win : Bool)
    (n : Nat) (buf : List Char) (c : Nat) :
    match innerScan loads win n buf c with
    | .more _ _ evs => ∀ e ∈ evs, isYield e = true
    | .done evs => ∃ pre, evs = pre ++ [.signal (sigFor win), .waitChild] ∧
        ∀ e ∈ pre, isYield e = true
    | .failed evs => ∀ e ∈ evs, isYield e = true := by
  induction buf, c using innerScan.induct loads win n with
  | case1 buf c hs =>
    rw [innerScan_of_stuck loads win n c hs]
    simp
  | case2 buf c j b2 hs h3 =>
    rw [innerScan_of_bad loads win n c hs h3]
    simp
  | case3 buf c j b2 hs v h3 h4 =>
    rw [innerScan_of_reach loads win n c hs h3 h4]
    exact ⟨[.yield v], rfl, by simp [isYield]⟩
  | case4 buf c j b2 hs v h3 h4 b4 c4 evs4 hr ih =>
    rw [innerScan_of_step loads win n c hs h3 h4, hr]
    rw [hr] at ih
    simp only [ScanResult.prepend]
    intro e he
    rcases List.mem_append.mp he with he | he
    · simp only [List.mem_singleton] at he
      subst he
      rfl
    · exact ih e he
  | case5 buf c j b2 hs v h3 h4 evs4 hr ih =>
    rw [innerScan_of_step loads win n c hs h3 h4, hr]
    rw [hr] at ih
    simp only [ScanResult.prepend]
    obtain ⟨pre, hpre, hall⟩ := ih
    refine ⟨.yield v :: pre, by simp [hpre], ?_⟩
    intro e he
    rcases List.mem_cons.mp he with he | he
    · subst he; rfl
    · exact hall e he
  | case6 buf c j b2 hs v h3 h4 evs4 hr ih =>
    rw [innerScan_of_step loads win n c hs h3 h4, hr]
    rw [hr] at ih
    simp only [ScanResult.prepend]
    intro e he
    rcases List.mem_cons.mp (by simpa using he) with he | he
    · subst he; rfl
    · exact ih e he

/-- Counter bookkeeping of one scan, starting strictly below the target:
the counter advances by exactly the number of yields, stays below the
target while the loop continues or fails, and lands exactly on the
target when the scan returns via the shutdown path. -/
theorem innerScan_counter {J : Type} (loads : List Char → Option J) (win : Bool)
    (n : Nat) (buf : List Char) (c : Nat) (hc : c < n) :
    match innerScan loads win n buf c with
    | .more _ c2 evs => c2 = c + (yields evs).length ∧ c2 < n
    | .done evs => c + (yields evs).length = n
    | .failed evs => c + (yields evs).length < n := by
  induction buf, c using innerScan.induct loads win n with
  | case1 buf c hs =>
    rw [innerScan_of_stuck loads win n c hs]
    exact ⟨by simp, hc⟩
  | case2 buf c j b2 hs h3 =>
    rw [innerScan_of_bad loads win n c hs h3]
    simpa using hc
  | case3 buf c j b2 hs v h3 h4 =>
    rw [innerScan_of_reach loads win n c hs h3 h4]
    simp only [yields_cons_yield, yields_cons_signal, yields_cons_wait, yields_nil]
    simp only [List.length_cons, List.length_nil]
    omega
  | case4 buf c j b2 hs v h3 h4 b4 c4 evs4 hr ih =>
    rw [innerScan_of_step loads win n c hs h3 h4, hr]
    rw [hr] at ih
    have ih2 := ih (by omega)
    simp only [ScanResult.prepend] at ih2 ⊢
    simp only [List.singleton_append, yields_cons_yield, List.length_cons]
    omega
  | case5 buf c j b2 hs v h3 h4 evs4 hr ih =>
    rw [innerScan_of_step loads win n c hs h3 h4, hr]
    rw [hr] at ih
    have ih2 := ih (by omega)
    simp only [ScanResult.prepend] at ih2 ⊢
    simp only [List.singleton_append, yields_cons_yield, List.length_cons]
    omega
  | case6 buf c j b2 hs v h3 h4 evs4 hr ih =>
    rw [innerScan_of_step loads win n c hs h3 h4, hr]
    rw [hr] at ih
    have ih2 := ih (by omega)
    simp only [ScanResult.prepend] at ih2 ⊢
    simp only [List.singleton_append, yields_cons_yield, List.length_cons]
    omega

/-- The split-independent part of a run: its trace and its outcome.
(The unconsumed read events depend on chunk boundaries, the behaviour
does not.) -/
def RunOut.obs {J : Type} (r : RunOut J) : List (Event J) × Outcome :=
  (r.trace, r.outcome)

theorem runLoop_nil {J : Type} (loads : List Char → Option J) (win : Bool)
    (n : Nat) (buf : List Char) (c : Nat) :
    runLoop loads win n [] buf c = ⟨[.waitChild], .normal, []⟩ := rfl

theorem runLoop_stall_head {J : Type} (loads : List Char → Option J) (win : Bool)
    (n : Nat) {e : ReadEvent} (es : List ReadEvent) (buf : List Char) (c : Nat)
    (h : timeoutBound < e.dur) :
    runLoop loads win n (e :: es) buf c = ⟨[], .stallTimeout, es⟩ := by
  rw [runLoop, if_pos h]

theorem runLoop_eof {J : Type} (loads : List Char → Option J) (win : Bool)
    (n : Nat) {e : ReadEvent} (es : List ReadEvent) (buf : List Char) (c : Nat)
    (h : ¬timeoutBound < e.dur) (h2 : e.line = []) :
    runLoop loads win n (e :: es) buf c = ⟨[.waitChild], .normal, es⟩ := by
  rw [runLoop, if_neg h, if_pos h2]

theorem runLoop_data {J : Type} (loads : List Char → Option J) (win : Bool)
    (n : Nat) {e : ReadEvent} (es : List ReadEvent) (buf : List Char) (c : Nat)
    (h : ¬timeoutBound < e.dur) (h2 : e.line ≠ []) :
    runLoop loads win n (e :: es) buf c =
      match innerScan loads win n (buf ++ e.line) c with
      | .more b c2 evs =>
        let r := runLoop loads win n es b c2
        ⟨evs ++ r.trace, r.outcome, r.remaining⟩
      | .done evs => ⟨evs, .reached, es⟩
      | .failed evs => ⟨evs, .decodeError, es⟩ := by
  rw [runLoop, if_neg h, if_neg h2]

/-- Delivering two consecutive non-empty chunks in separate prompt reads
behaves (trace and outcome) exactly like delivering their concatenation
in one read. -/
theorem runLoop_merge {J : Type} (loads : List Char → Option J) (win : Bool)
    (n : Nat) (l1 l2 : List Char) (es : List ReadEvent) (buf : List Char) (c : Nat)
    (h1 : l1 ≠ []) (h2 : l2 ≠ []) :
    (runLoop loads win n (⟨0, l1⟩ :: ⟨0, l2⟩ :: es) buf c).obs =
      (runLoop loads win n (⟨0, l1 ++ l2⟩ :: es) buf c).obs := by
  have hto : ¬timeoutBound < (0 : Nat) := by simp
  have h12 : l1 ++ l2 ≠ [] := by simp [h1]
  rw [runLoop_data loads win n _ buf c hto h1,
    runLoop_data loads win n es buf c hto h12]
  show _ = (match innerScan loads win n (buf ++ (l1 ++ l2)) c with
    | ScanResult.more b c2 evs =>
      let r := runLoop loads win n es b c2
      RunOut.mk (evs ++ r.trace) r.outcome r.remaining
    | .done evs => ⟨evs, .reached, es⟩
    | .failed evs => ⟨evs, .decodeError, es⟩).obs
  rw [← List.append_assoc, innerScan_append loads win n (buf ++ l1) l2 c]
  rcases hsc : innerScan loads win n (buf ++ l1) c with ⟨b, c2, evs⟩ | evs | evs
  · dsimp only
    rw [runLoop_data loads win n es b c2 hto h2]
    rcases hsc2 : innerScan loads win n (b ++ l2) c2 with ⟨b3, c3, e3⟩ | e3 | e3 <;>
      simp [RunOut.obs, ScanResult.prepend]
  · simp [RunOut.obs]
  · simp [RunOut.obs]

/-- A non-empty first chunk followed by further non-empty chunks behaves
like one read of the whole concatenation. -/
theorem runLoop_chunks_aux {J : Type} (loads : List Char → Option J) (win : Bool)
    (n : Nat) (cs : List (List Char)) :
    ∀ (first : List Char) (es : List ReadEvent) (buf : List Char) (c : Nat),
      first ≠ [] → (∀ l ∈ cs, l ≠ []) →
      (runLoop loads win n (⟨0, first⟩ :: chunkReads cs ++ es) buf c).obs =
        (runLoop loads win n (⟨0, first ++ cs.flatten⟩ :: es) buf c).obs := by
  induction cs with
  | nil =>
    intro first es buf c _ _
    simp [chunkReads]
  | cons l cs ih =>
    intro first es buf c hfirst hne
    have hl : l ≠ [] := hne l (by simp)
    have hcs : ∀ x ∈ cs, x ≠ [] := fun x hx => hne x (by simp [hx])
    have step := runLoop_merge loads win n first l (chunkReads cs ++ es) buf c hfirst hl
    calc (runLoop loads win n (⟨0, first⟩ :: chunkReads (l :: cs) ++ es) buf c).obs
        = (runLoop loads win n (⟨0, first ++ l⟩ :: chunkReads cs ++ es) buf c).obs := by
          simpa [chunkReads] using step
      _ = (runLoop loads win n (⟨0, (first ++ l) ++ cs.flatten⟩ :: es) buf c).obs :=
          ih (first ++ l) es buf c (by simp [hfirst]) hcs
      _ = (runLoop loads win n (⟨0, first ++ (l :: cs).flatten⟩ :: es) buf c).obs := by
          simp

/-- Chunking invariance: feeding any sequence of non-empty chunks is,
for trace and outcome, the same as feeding their concatenation in a
single read. -/
theorem runLoop_chunks {J : Type} (loads : List Char → Option J) (win : Bool)
    (n : Nat) (cs : List (List Char)) (es : List ReadEvent) (buf : List Char)
    (c : Nat) (hne : ∀ l ∈ cs, l ≠ []) (hcs : cs ≠ []) :
    (runLoop loads win n (chunkReads cs ++ es) buf c).obs =
      (runLoop loads win n (⟨0, cs.flatten⟩ :: es) buf c).obs := by
  cases cs with
  | nil => exact absurd rfl hcs
  | cons l cs =>
    have hl : l ≠ [] := hne l (by simp)
    have hcs2 : ∀ x ∈ cs, x ≠ [] := fun x hx => hne x (by simp [hx])
    have := runLoop_chunks_aux loads win n cs l es buf c hl hcs2
    simpa [chunkReads] using this

theorem frame_ne_nil (p : List Char) : frame p ≠ [] := by
  simp [frame]

theorem frame_eq (p : List Char) : frame p = rs :: (p ++ nl :: []) := by
  simp [frame]

theorem framedStream_eq_nil_iff (ps : List (List Char)) :
    framedStream ps = [] ↔ ps = [] := by
  cases ps with
  | nil => simp [framedStream]
  | cons p ps =>
    rw [framedStream_cons]
    simp [frame]

theorem map_loads_length {J : Type} {loads : List Char → Option J}
    {ps : List (List Char)} {vs : List J} (h : ps.map loads = vs.map some) :
    ps.length = vs.length := by
  have := congrArg List.length h
  simpa using this

/-- Scanning a buffer holding exactly the frames of `ps`, with the target
still out of reach: every frame is removed and yielded in order, the
buffer ends empty, the counter advances by the number of frames. -/
theorem innerScan_framedStream {J : Type} (loads : List Char → Option J) (win : Bool)
    (n : Nat) (ps : List (List Char)) :
    ∀ (vs : List J) (c : Nat), ps.map loads = vs.map some → (∀ p ∈ ps, nl ∉ p) →
      c + ps.length < n →
      innerScan loads win n (framedStream ps) c =
        .more [] (c + ps.length) (vs.map .yield) := by
  induction ps with
  | nil =>
    intro vs c h _ _
    have hvs : vs = [] := by
      cases vs with
      | nil => rfl
      | cons v vs => simp at h
    subst hvs
    simpa [framedStream_nil] using innerScan_nil loads win n c
  | cons p ps ih =>
    intro vs c h hnl hn
    cases vs with
    | nil => simp at h
    | cons v vs2 =>
      simp only [List.map_cons, List.cons.injEq] at h
      obtain ⟨h1, h2⟩ := h
      rw [framedStream_cons, frame_append]
      have hstep : scanStep (rs :: (p ++ nl :: framedStream ps)) = some (p, framedStream ps) := by
        have := scanStep_frame [] p (framedStream ps)
          (by simp) (hnl p (by simp))
        simpa using this
      have h4 : ¬n ≤ c + 1 := by
        simp only [List.length_cons] at hn
        omega
      rw [innerScan_of_step loads win n c hstep h1 h4]
      rw [ih vs2 (c + 1) h2 (fun q hq => hnl q (by simp [hq])) (by
        simp only [List.length_cons] at hn
        omega)]
      simp only [ScanResult.prepend, List.singleton_append, List.map_cons,
        List.length_cons]
      congr 1
      omega

/-- Scanning a buffer holding the frames of `ps` when the target count
falls within them: the scan yields the first `n - c` messages, sends the
signal, waits and returns, ignoring everything after the frame on which
the count was reached. -/
theorem innerScan_framedStream_reach {J : Type} (loads : List Char → Option J)
    (win : Bool) (n : Nat) (ps : List (List Char)) :
    ∀ (vs : List J) (c : Nat) (tail : List Char),
      ps.map loads = vs.map some → (∀ p ∈ ps, nl ∉ p) →
      c < n → n ≤ c + ps.length →
      innerScan loads win n (framedStream ps ++ tail) c =
        .done ((vs.take (n - c)).map .yield ++
          [.signal (sigFor win), .waitChild]) := by
  induction ps with
  | nil =>
    intro vs c tail _ _ hc hn
    simp only [List.length_nil, Nat.add_zero] at hn
    omega
  | cons p ps ih =>
    intro vs c tail h hnl hc hn
    cases vs with
    | nil => simp at h
    | cons v vs2 =>
      simp only [List.map_cons, List.cons.injEq] at h
      obtain ⟨h1, h2⟩ := h
      rw [framedStream_cons]
      have hshape : frame p ++ framedStream ps ++ tail =
          rs :: (p ++ nl :: (framedStream ps ++ tail)) := by
        rw [List.append_assoc, frame_append]
      rw [hshape]
      have hstep : scanStep (rs :: (p ++ nl :: (framedStream ps ++ tail))) =
          some (p, framedStream ps ++ tail) := by
        have := scanStep_frame [] p (framedStream ps ++ tail)
          (by simp) (hnl p (by simp))
        simpa using this
      by_cases h4 : n ≤ c + 1
      · rw [innerScan_of_reach loads win n c hstep h1 h4]
        have hnc : n - c = 1 := by omega
        rw [hnc]
        simp
      · rw [innerScan_of_step loads win n c hstep h1 h4]
        rw [ih vs2 (c + 1) tail h2 (fun q hq => hnl q (by simp [hq])) (by omega) (by
          simp only [List.length_cons] at hn
          omega)]
        simp only [ScanResult.prepend, List.singleton_append]
        have hnc : n - c = (n - (c + 1)) + 1 := by omega
        rw [hnc, List.take_succ_cons]
        simp

/-- Leading separator-free noise before the first frame is discarded:
it changes nothing about how the frames of `ps` are scanned (target
out of reach). -/
theorem innerScan_junk_framedStream {J : Type} (loads : List Char → Option J)
    (win : Bool) (n : Nat) (junk : List Char) (ps : List (List Char))
    (vs : List J) (c : Nat) (hjunk : rs ∉ junk) (hps : ps ≠ [])
    (h : ps.map loads = vs.map some) (hnl : ∀ p ∈ ps, nl ∉ p)
    (hn : c + ps.length < n) :
    innerScan loads win n (junk ++ framedStream ps) c =
      .more [] (c + ps.length) (vs.map .yield) := by
  cases ps with
  | nil => exact absurd rfl hps
  | cons p ps =>
    cases vs with
    | nil => simp at h
    | cons v vs2 =>
      simp only [List.map_cons, List.cons.injEq] at h
      obtain ⟨h1, h2⟩ := h
      rw [framedStream_cons, frame_append]
      have hstep := scanStep_frame junk p (framedStream ps) hjunk
        (hnl p (by simp))
      have h4 : ¬n ≤ c + 1 := by
        simp only [List.length_cons] at hn
        omega
      rw [innerScan_of_step loads win n c hstep h1 h4]
      rw [innerScan_framedStream loads win n ps vs2 (c + 1) h2
        (fun q hq => hnl q (by simp [hq])) (by
          simp only [List.length_cons] at hn
          omega)]
      simp only [ScanResult.prepend, List.singleton_append, List.map_cons,
        List.length_cons]
      congr 1
      omega

/-- Leading separator-free noise before the first frame is discarded,
shutdown-path version (target count reached within the frames). -/
theorem innerScan_junk_framedStream_reach {J : Type} (loads : List Char → Option J)
    (win : Bool) (n : Nat) (junk : List Char) (ps : List (List Char))
    (vs : List J) (c : Nat) (hjunk : rs ∉ junk) (hps : ps ≠ [])
    (h : ps.map loads = vs.map some) (hnl : ∀ p ∈ ps, nl ∉ p)
    (hc : c < n) (hn : n ≤ c + ps.length) :
    innerScan loads win n (junk ++ framedStream ps) c =
      .done ((vs.take (n - c)).map .yield ++
        [.signal (sigFor win), .waitChild]) := by
  cases ps with
  | nil => exact absurd rfl hps
  | cons p ps =>
    cases vs with
    | nil => simp at h
    | cons v vs2 =>
      simp only [List.map_cons, List.cons.injEq] at h
      obtain ⟨h1, h2⟩ := h
      rw [framedStream_cons, frame_append]
      have hstep := scanStep_frame junk p (framedStream ps) hjunk
        (hnl p (by simp))
      by_cases h4 : n ≤ c + 1
      · rw [innerScan_of_reach loads win n c hstep h1 h4]
        have hnc : n - c = 1 := by omega
        rw [hnc]
        simp
      · rw [innerScan_of_step loads win n c hstep h1 h4]
        have hrest := innerScan_framedStream_reach loads win n ps vs2 (c + 1) []
          h2 (fun q hq => hnl q (by simp [hq])) (by omega) (by
            simp only [List.length_cons] at hn
            omega)
        rw [List.append_nil] at hrest
        rw [hrest]
        simp only [ScanResult.prepend, List.singleton_append]
        have hnc : n - c = (n - (c + 1)) + 1 := by omega
        rw [hnc, List.take_succ_cons]
        simp

/-- Reading the frames of `ps` one frame per read, target still out of
reach afterwards: each frame is yielded as it arrives, the buffer stays
empty, and the run continues on the remaining events with the advanced
counter. -/
theorem runLoop_frames_prefix {J : Type} (loads : List Char → Option J) (win : Bool)
    (n : Nat) (ps : List (List Char)) :
    ∀ (vs : List J) (c : Nat) (es : List ReadEvent),
      ps.map loads = vs.map some → (∀ p ∈ ps, nl ∉ p) → c + ps.length < n →
      runLoop loads win n (chunkReads (ps.map frame) ++ es) [] c =
        ⟨vs.map .yield ++ (runLoop loads win n es [] (c + ps.length)).trace,
         (runLoop loads win n es [] (c + ps.length)).outcome,
         (runLoop loads win n es [] (c + ps.length)).remaining⟩ := by
  induction ps with
  | nil =>
    intro vs c es h _ _
    have hvs : vs = [] := by
      cases vs with
      | nil => rfl
      | cons v vs => simp at h
    subst hvs
    simp [chunkReads]
  | cons p ps ih =>
    intro vs c es h hnl hn
    cases vs with
    | nil => simp at h
    | cons v vs2 =>
      simp only [List.map_cons, List.cons.injEq] at h
      obtain ⟨h1, h2⟩ := h
      have hto : ¬timeoutBound < (0 : Nat) := by simp
      have hline : frame p ≠ [] := frame_ne_nil p
      simp only [List.map_cons, chunkReads, List.cons_append]
      rw [runLoop_data loads win n _ [] c hto hline]
      dsimp only [List.nil_append]
      have hstep : scanStep ([] ++ frame p) = some (p, []) := by
        have := scanStep_frame [] p [] (by simp) (hnl p (by simp))
        simpa [frame_eq] using this
      simp only [List.nil_append] at hstep
      have h4 : ¬n ≤ c + 1 := by
        simp only [List.length_cons] at hn
        omega
      rw [innerScan_of_step loads win n c hstep h1 h4, innerScan_nil loads win n (c + 1)]
      simp only [ScanResult.prepend, List.append_nil]
      have ihr := ih vs2 (c + 1) es h2 (fun q hq => hnl q (by simp [hq])) (by
        simp only [List.length_cons] at hn
        omega)
      simp only [chunkReads] at ihr
      rw [ihr]
      simp only [List.map_cons, List.length_cons, List.singleton_append,
        List.cons_append]
      have hcc : c + 1 + ps.length = c + (ps.length + 1) := by omega
      rw [hcc]
      simp only [List.nil_append]

/-- Reading the frames of `ps` one frame per read when the target count
falls within them: the run yields the first `n - c` frames, performs the
shutdown handshake on the frame that reaches the count, and never
consumes the reads carrying the later frames. -/
theorem runLoop_frames_reach {J : Type} (loads : List Char → Option J) (win : Bool)
    (n : Nat) (ps : List (List Char)) :
    ∀ (vs : List J) (c : Nat) (es : List ReadEvent),
      ps.map loads = vs.map some → (∀ p ∈ ps, nl ∉ p) → c < n →
      n ≤ c + ps.length →
      runLoop loads win n (chunkReads (ps.map frame) ++ es) [] c =
        ⟨(vs.take (n - c)).map .yield ++ [.signal (sigFor win), .waitChild],
         .reached,
         chunkReads ((ps.drop (n - c)).map frame) ++ es⟩ := by
  induction ps with
  | nil =>
    intro vs c es _ _ hc hn
    simp only [List.length_nil, Nat.add_zero] at hn
    omega
  | cons p ps ih =>
    intro vs c es h hnl hc hn
    cases vs with
    | nil => simp at h
    | cons v vs2 =>
      simp only [List.map_cons, List.cons.injEq] at h
      obtain ⟨h1, h2⟩ := h
      have hto : ¬timeoutBound < (0 : Nat) := by simp
      have hline : frame p ≠ [] := frame_ne_nil p
      simp only [List.map_cons, chunkReads, List.cons_append]
      rw [runLoop_data loads win n _ [] c hto hline]
      dsimp only [List.nil_append]
      have hstep : scanStep ([] ++ frame p) = some (p, []) := by
        have := scanStep_frame [] p [] (by simp) (hnl p (by simp))
        simpa [frame_eq] using this
      simp only [List.nil_append] at hstep
      by_cases h4 : n ≤ c + 1
      · rw [innerScan_of_reach loads win n c hstep h1 h4]
        have hnc : n - c = 1 := by omega
        rw [hnc]
        simp [chunkReads]
      · rw [innerScan_of_step loads win n c hstep h1 h4, innerScan_nil loads win n (c + 1)]
        simp only [ScanResult.prepend, List.append_nil]
        have ihr := ih vs2 (c + 1) es h2 (fun q hq => hnl q (by simp [hq]))
          (by omega) (by
            simp only [List.length_cons] at hn
            omega)
        simp only [chunkReads] at ihr
        rw [ihr]
        have hnc : n - c = (n - (c + 1)) + 1 := by omega
        rw [hnc, List.take_succ_cons, List.drop_succ_cons]
        simp

/-- A run can only end in a stall if some read exceeded the bound: a run
whose reads each complete within the bound never stalls, however long it
takes in total. -/
theorem runLoop_stall_mem {J : Type} (loads : List Char → Option J) (win : Bool)
    (n : Nat) (es : List ReadEvent) :
    ∀ (buf : List Char) (c : Nat),
      (runLoop loads win n es buf c).outcome = .stallTimeout →
      ∃ e ∈ es, timeoutBound < e.dur := by
  induction es with
  | nil =>
    intro buf c h
    rw [runLoop_nil] at h
    cases h
  | cons e es ih =>
    intro buf c h
    by_cases hto : timeoutBound < e.dur
    · exact ⟨e, by simp, hto⟩
    · by_cases hline : e.line = []
      · rw [runLoop_eof loads win n es buf c hto hline] at h
        cases h
      · rw [runLoop_data loads win n es buf c hto hline] at h
        rcases hsc : innerScan loads win n (buf ++ e.line) c with ⟨b, c2, evs⟩ | evs | evs
        · rw [hsc] at h
          dsimp only at h
          obtain ⟨e2, he2, hd⟩ := ih b c2 h
          exact ⟨e2, by simp [he2], hd⟩
        · rw [hsc] at h
          cases h
        · rw [hsc] at h
          cases h

/-- Whenever a run ends because the requested count was reached, its
trace is a run of yields closed by exactly the platform signal and one
wait for the child — nothing else, in particular no kill. -/
theorem runLoop_reached_shape {J : Type} (loads : List Char → Option J) (win : Bool)
    (n : Nat) (es : List ReadEvent) :
    ∀ (buf : List Char) (c : Nat),
      (runLoop loads win n es buf c).outcome = .reached →
      ∃ pre, (runLoop loads win n es buf c).trace =
          pre ++ [.signal (sigFor win), .waitChild] ∧
        ∀ e ∈ pre, isYield e = true := by
  induction es with
  | nil =>
    intro buf c h
    rw [runLoop_nil] at h
    cases h
  | cons e es ih =>
    intro buf c h
    by_cases hto : timeoutBound < e.dur
    · rw [runLoop_stall_head loads win n es buf c hto] at h
      cases h
    · by_cases hline : e.line = []
      · rw [runLoop_eof loads win n es buf c hto hline] at h
        cases h
      · rw [runLoop_data loads win n es buf c hto hline] at h ⊢
        have hshape := innerScan_events_shape loads win n (buf ++ e.line) c
        rcases hsc : innerScan loads win n (buf ++ e.line) c with ⟨b, c2, evs⟩ | evs | evs
        · rw [hsc] at h hshape
          dsimp only at h ⊢
          obtain ⟨pre, hpre, hall⟩ := ih b c2 h
          refine ⟨evs ++ pre, by simp [hpre], ?_⟩
          intro x hx
          rcases List.mem_append.mp hx with hx | hx
          · exact hshape x hx
          · exact hall x hx
        · rw [hsc] at h hshape
          exact hshape
        · rw [hsc] at h hshape
          cases h

/-- Counter bookkeeping of a whole run started strictly below the target:
never more than `n - c` yields, with equality exactly on the reached
path. -/
theorem runLoop_counter {J : Type} (loads : List Char → Option J) (win : Bool)
    (n : Nat) (es : List ReadEvent) :
    ∀ (buf : List Char) (c : Nat), c < n →
      (yields (runLoop loads win n es buf c).trace).length ≤ n - c ∧
        ((runLoop loads win n es buf c).outcome = .reached ↔
          c + (yields (runLoop loads win n es buf c).trace).length = n) := by
  induction es with
  | nil =>
    intro buf c hc
    rw [runLoop_nil]
    constructor
    · simp
    · constructor
      · intro h; cases h
      · intro h
        simp at h
        omega
  | cons e es ih =>
    intro buf c hc
    by_cases hto : timeoutBound < e.dur
    · rw [runLoop_stall_head loads win n es buf c hto]
      constructor
      · simp
      · constructor
        · intro h; cases h
        · intro h
          simp at h
          omega
    · by_cases hline : e.line = []
      · rw [runLoop_eof loads win n es buf c hto hline]
        constructor
        · simp
        · constructor
          · intro h; cases h
          · intro h
            simp at h
            omega
      · rw [runLoop_data loads win n es buf c hto hline]
        have hcnt := innerScan_counter loads win n (buf ++ e.line) c hc
        rcases hsc : innerScan loads win n (buf ++ e.line) c with ⟨b, c2, evs⟩ | evs | evs
        · rw [hsc] at hcnt
          obtain ⟨hc2, hc2lt⟩ := hcnt
          dsimp only
          obtain ⟨ihle, ihiff⟩ := ih b c2 hc2lt
          constructor
          · simp only [yields_append, List.length_append]
            omega
          · simp only [yields_append, List.length_append]
            constructor
            · intro h
              have := ihiff.mp h
              omega
            · intro h
              apply ihiff.mpr
              omega
        · rw [hsc] at hcnt
          dsimp only
          constructor
          · omega
          · constructor
            · intro _
              omega
            · intro _
              rfl
        · rw [hsc] at hcnt
          dsimp only
          constructor
          · omega
          · constructor
            · intro h; cases h
            · intro h
              omega

theorem run_edgelink_of_normal {J : Type} (loads : List Char → Option J) (win : Bool)
    (n : Nat) (es : List ReadEvent)
    (h : (read_json_from_process loads win n es).outcome = .normal) :
    run_edgelink loads win n es =
      ⟨(read_json_from_process loads win n es).trace,
       .ok (yields (read_json_from_process loads win n es).trace)⟩ := by
  unfold run_edgelink
  dsimp only
  rw [h]

theorem run_edgelink_of_reached {J : Type} (loads : List Char → Option J) (win : Bool)
    (n : Nat) (es : List ReadEvent)
    (h : (read_json_from_process loads win n es).outcome = .reached) :
    run_edgelink loads win n es =
      ⟨(read_json_from_process loads win n es).trace,
       .ok (yields (read_json_from_process loads win n es).trace)⟩ := by
  unfold run_edgelink
  dsimp only
  rw [h]

theorem run_edgelink_of_decodeError {J : Type} (loads : List Char → Option J) (win : Bool)
    (n : Nat) (es : List ReadEvent)
    (h : (read_json_from_process loads win n es).outcome = .decodeError) :
    run_edgelink loads win n es =
      ⟨(read_json_from_process loads win n es).trace ++ [.kill, .waitChild],
       .error .decodeError⟩ := by
  unfold run_edgelink
  dsimp only
  rw [h]

theorem run_edgelink_of_stall {J : Type} (loads : List Char → Option J) (win : Bool)
    (n : Nat) (es : List ReadEvent)
    (h : (read_json_from_process loads win n es).outcome = .stallTimeout) :
    run_edgelink loads win n es =
      ⟨(read_json_from_process loads win n es).trace ++ [.kill, .waitChild],
       .error .stallTimeout⟩ := by
  unfold run_edgelink
  dsimp only
  rw [h]

/-- The facade raises the stall error exactly when the collector loop
ended by timeout. -/
theorem run_edgelink_stall_iff {J : Type} (loads : List Char → Option J) (win : Bool)
    (n : Nat) (es : List ReadEvent) :
    (run_edgelink loads win n es).result = Except.error RunError.stallTimeout ↔
      (read_json_from_process loads win n es).outcome = .stallTimeout := by
  unfold run_edgelink
  dsimp only
  rcases ho : (read_json_from_process loads win n es).outcome <;> simp [ho]

/-- Two event streams on which the collector has the same trace and
outcome give the same facade behaviour. -/
theorem run_edgelink_congr {J : Type} (loads : List Char → Option J) (win : Bool)
    (n : Nat) (ev1 ev2 : List ReadEvent)
    (h : (read_json_from_process loads win n ev1).obs =
      (read_json_from_process loads win n ev2).obs) :
    (run_edgelink loads win n ev1).trace = (run_edgelink loads win n ev2).trace ∧
      (run_edgelink loads win n ev1).result = (run_edgelink loads win n ev2).result := by
  have ht : (read_json_from_process loads win n ev1).trace =
      (read_json_from_process loads win n ev2).trace := congrArg Prod.fst h
  have ho : (read_json_from_process loads win n ev1).outcome =
      (read_json_from_process loads win n ev2).outcome := congrArg Prod.snd h
  unfold run_edgelink
  dsimp only
  rw [ht, ho]
  exact ⟨rfl, rfl⟩

theorem scanStep_of_no_rs {b : List Char} (h : rs ∉ b) : scanStep b = none := by
  unfold scanStep
  rw [(splitFirst_eq_none_iff rs b).mpr h]

/-- A single read delivering separator-free noise followed by the frames
of `ps`, with `nexpected` at least the number of frames: the facade
returns exactly the decoded payloads, in order. -/
theorem run_junk_framed {J : Type} (loads : List Char → Option J) (win : Bool)
    (n : Nat) (junk : List Char) (ps : List (List Char)) (vs : List J)
    (hjunk : rs ∉ junk) (hload : ps.map loads = vs.map some)
    (hnl : ∀ p ∈ ps, nl ∉ p) (hn : ps.length ≤ n) :
    (run_edgelink loads win n [⟨0, junk ++ framedStream ps⟩]).result = .ok vs ∧
      yields (run_edgelink loads win n [⟨0, junk ++ framedStream ps⟩]).trace = vs := by
  have hto : ¬timeoutBound < (0 : Nat) := by simp
  by_cases hline : junk ++ framedStream ps = []
  · have hpsn : ps = [] := by
      rcases List.append_eq_nil.mp hline with ⟨_, h2⟩
      exact (framedStream_eq_nil_iff ps).mp h2
    subst hpsn
    have hvs : vs = [] := by
      cases vs with
      | nil => rfl
      | cons v vs => simp at hload
    subst hvs
    have hr : read_json_from_process loads win n [⟨0, junk ++ framedStream []⟩] =
        ⟨[.waitChild], .normal, []⟩ := by
      unfold read_json_from_process
      exact runLoop_eof loads win n [] [] 0 hto hline
    rw [run_edgelink_of_normal loads win n _ (by rw [hr]), hr]
    simp
  · have hr0 : read_json_from_process loads win n [⟨0, junk ++ framedStream ps⟩] =
        match innerScan loads win n ([] ++ (junk ++ framedStream ps)) 0 with
        | .more b c2 evs =>
          let r := runLoop loads win n [] b c2
          RunOut.mk (evs ++ r.trace) r.outcome r.remaining
        | .done evs => ⟨evs, .reached, []⟩
        | .failed evs => ⟨evs, .decodeError, []⟩ := by
      unfold read_json_from_process
      exact runLoop_data loads win n [] [] 0 hto hline
    by_cases hpse : ps = []
    · subst hpse
      have hvs : vs = [] := by
        cases vs with
        | nil => rfl
        | cons v vs => simp at hload
      subst hvs
      have hscan : innerScan loads win n ([] ++ (junk ++ framedStream [])) 0 =
          .more junk 0 [] := by
        rw [framedStream_nil, List.append_nil, List.nil_append]
        exact innerScan_of_stuck loads win n 0 (scanStep_of_no_rs hjunk)
      rw [hscan] at hr0
      dsimp only at hr0
      rw [runLoop_nil] at hr0
      rw [run_edgelink_of_normal loads win n _ (by rw [hr0]), hr0]
      simp
    · have hpsne : ps ≠ [] := hpse
      by_cases hncase : ps.length < n
      · have hscan : innerScan loads win n ([] ++ (junk ++ framedStream ps)) 0 =
            .more [] (0 + ps.length) (vs.map .yield) := by
          rw [List.nil_append]
          exact innerScan_junk_framedStream loads win n junk ps vs 0 hjunk
            hpsne hload hnl (by omega)
        rw [hscan] at hr0
        dsimp only at hr0
        rw [runLoop_nil] at hr0
        rw [run_edgelink_of_normal loads win n _ (by rw [hr0]), hr0]
        simp
      · have hlen1 : 0 < ps.length := List.length_pos.mpr hpse
        have hpos : 0 < n := by omega
        have hneq : n ≤ 0 + ps.length := by omega
        have hscan : innerScan loads win n ([] ++ (junk ++ framedStream ps)) 0 =
            .done ((vs.take (n - 0)).map .yield ++
              [.signal (sigFor win), .waitChild]) := by
          rw [List.nil_append]
          exact innerScan_junk_framedStream_reach loads win n junk ps vs 0 hjunk
            hpsne hload hnl hpos hneq
        have htake : vs.take (n - 0) = vs := by
          have hlen := map_loads_length hload
          have hveq : n = vs.length := by omega
          rw [Nat.sub_zero, hveq]
          exact List.take_length ..
        rw [htake] at hscan
        rw [hscan] at hr0
        dsimp only at hr0
        rw [run_edgelink_of_reached loads win n _ (by rw [hr0]), hr0]
        simp

/-- Good frames followed by a frame whose payload `json.loads` rejects:
the invocation raises the decode error after yielding the good frames,
and the facade kills and reaps the child before the error propagates. -/
theorem run_bad_frame {J : Type} (loads : List Char → Option J) (win : Bool)
    (n : Nat) (ps : List (List Char)) (vs : List J) (bad : List Char)
    (rest : List ReadEvent)
    (hload : ps.map loads = vs.map some) (hnl : ∀ p ∈ ps, nl ∉ p)
    (hbadnl : nl ∉ bad) (hbad : loads bad = none) (hn : ps.length < n) :
    (run_edgelink loads win n
        (chunkReads (ps.map frame) ++ ⟨0, frame bad⟩ :: rest)).result =
      .error .decodeError ∧
    (run_edgelink loads win n
        (chunkReads (ps.map frame) ++ ⟨0, frame bad⟩ :: rest)).trace =
      vs.map .yield ++ [.kill, .waitChild] := by
  have hto : ¬timeoutBound < (0 : Nat) := by simp
  have hr0 : read_json_from_process loads win n
      (chunkReads (ps.map frame) ++ ⟨0, frame bad⟩ :: rest) =
      ⟨vs.map .yield ++
        (runLoop loads win n (⟨0, frame bad⟩ :: rest) [] (0 + ps.length)).trace,
       (runLoop loads win n (⟨0, frame bad⟩ :: rest) [] (0 + ps.length)).outcome,
       (runLoop loads win n (⟨0, frame bad⟩ :: rest) [] (0 + ps.length)).remaining⟩ := by
    unfold read_json_from_process
    exact runLoop_frames_prefix loads win n ps vs 0 _ hload hnl (by omega)
  have hscanbad : innerScan loads win n ([] ++ frame bad) (0 + ps.length) = .failed [] := by
    have hstep : scanStep ([] ++ frame bad) = some (bad, []) := by
      have := scanStep_frame [] bad [] (by simp) hbadnl
      simpa [frame_eq] using this
    exact innerScan_of_bad loads win n _ hstep hbad
  have hbadloop : runLoop loads win n (⟨0, frame bad⟩ :: rest) [] (0 + ps.length) =
      ⟨[], .decodeError, rest⟩ := by
    rw [runLoop_data loads win n rest [] _ hto (frame_ne_nil bad)]
    rw [hscanbad]
  rw [hbadloop] at hr0
  have houtcome : (read_json_from_process loads win n
      (chunkReads (ps.map frame) ++ ⟨0, frame bad⟩ :: rest)).outcome = .decodeError := by
    rw [hr0]
  rw [run_edgelink_of_decodeError loads win n _ houtcome, hr0]
  constructor
  · rfl
  · simp

theorem innerScanSkip_nil {J : Type} (loads : List Char → Option J) (win : Bool)
    (n c : Nat) : innerScanSkip loads win n [] c = .more [] c [] :=
  innerScanSkip_of_stuck loads win n c scanStep_nil

/-- The json-console-test.py scan over the frames of `ps` when all
payloads parse and the target stays out of reach: identical behaviour
to the harness scan. -/
theorem innerScanSkip_framedStream {J : Type} (loads : List Char → Option J)
    (win : Bool) (n : Nat) (ps : List (List Char)) :
    ∀ (vs : List J) (c : Nat), ps.map loads = vs.map some → (∀ p ∈ ps, nl ∉ p) →
      c + ps.length < n →
      innerScanSkip loads win n (framedStream ps) c =
        .more [] (c + ps.length) (vs.map .yield) := by
  induction ps with
  | nil =>
    intro vs c h _ _
    have hvs : vs = [] := by
      cases vs with
      | nil => rfl
      | cons v vs => simp at h
    subst hvs
    simpa [framedStream_nil] using innerScanSkip_nil loads win n c
  | cons p ps ih =>
    intro vs c h hnl hn
    cases vs with
    | nil => simp at h
    | cons v vs2 =>
      simp only [List.map_cons, List.cons.injEq] at h
      obtain ⟨h1, h2⟩ := h
      rw [framedStream_cons, frame_append]
      have hstep : scanStep (rs :: (p ++ nl :: framedStream ps)) =
          some (p, framedStream ps) := by
        have := scanStep_frame [] p (framedStream ps)
          (by simp) (hnl p (by simp))
        simpa using this
      have h4 : ¬n ≤ c + 1 := by
        simp only [List.length_cons] at hn
        omega
      rw [innerScanSkip_of_step loads win n c hstep h1 h4]
      rw [ih vs2 (c + 1) h2 (fun q hq => hnl q (by simp [hq])) (by
        simp only [List.length_cons] at hn
        omega)]
      simp only [ScanResult.prepend, List.singleton_append, List.map_cons,
        List.length_cons]
      congr 1
      omega

/-- In the json-console-test.py variant a malformed leading frame is
consumed and skipped without disturbing the rest of the scan. -/
theorem innerScanSkip_bad_head {J : Type} (loads : List Char → Option J)
    (win : Bool) (n : Nat) (bad : List Char) (ps : List (List Char)) (c : Nat)
    (hbadnl : nl ∉ bad) (hbad : loads bad = none) :
    innerScanSkip loads win n (framedStream (bad :: ps)) c =
      innerScanSkip loads win n (framedStream ps) c := by
  rw [framedStream_cons, frame_append]
  have hstep : scanStep (rs :: (bad ++ nl :: framedStream ps)) =
      some (bad, framedStream ps) := by
    have := scanStep_frame [] bad (framedStream ps) (by simp) hbadnl
    simpa using this
  exact innerScanSkip_of_bad loads win n c hstep hbad

/-- A concrete `loads` for witnesses: the digit strings decode to their
value, every other payload — the empty string included — fails, as
`json.loads` fails on the empty string and on malformed text. -/
def loads0 : List Char → Option Nat := fun s =>
  if s = ['1'] then some 1
  else if s = ['2'] then some 2
  else if s = ['3'] then some 3
  else none

/-- Any chunking of a framed stream, delivered chunk by chunk, gives the
facade exactly the decoded payloads in order (target at least the frame
count). -/
theorem run_chunked_framed {J : Type} (loads : List Char → Option J) (win : Bool)
    (n : Nat) (ps cs : List (List Char)) (vs : List J)
    (hload : ps.map loads = vs.map some) (hnl : ∀ p ∈ ps, nl ∉ p)
    (hcs : ∀ l ∈ cs, l ≠ []) (hjoin : cs.flatten = framedStream ps)
    (hn : ps.length ≤ n) :
    (run_edgelink loads win n (chunkReads cs)).result = .ok vs := by
  by_cases hcse : cs = []
  · subst hcse
    simp only [List.flatten_nil] at hjoin
    have hps : ps = [] := (framedStream_eq_nil_iff ps).mp hjoin.symm
    subst hps
    have hvs : vs = [] := by
      cases vs with
      | nil => rfl
      | cons v vs => simp at hload
    subst hvs
    have hr : read_json_from_process loads win n (chunkReads []) =
        ⟨[.waitChild], .normal, []⟩ := by
      unfold read_json_from_process chunkReads
      simp only [List.map_nil]
      exact runLoop_nil loads win n [] 0
    rw [run_edgelink_of_normal loads win n _ (by rw [hr]), hr]
    simp
  · have hobs := runLoop_chunks loads win n cs [] [] 0 hcs hcse
    have hcongr := run_edgelink_congr loads win n (chunkReads cs) [⟨0, cs.flatten⟩]
      (by
        unfold read_json_from_process
        simpa [List.append_nil] using hobs)
    rw [hcongr.2, hjoin]
    have := run_junk_framed loads win n [] ps vs (by simp) hload hnl hn
    simpa using this.1

/-- C1: for any JSON values `V1..VN` framed in order, and any way of
splitting the framed byte stream into non-empty chunks fed sequentially
through the decode loop, the collector yields exactly the decoded values
`V1..VN` in order, independent of where the splits fall (assuming
`nexpected ≥ N`); the single-value case is `ps = [json(V)]`. -/
theorem claim1_frame_reassembly_ordering {J : Type} (loads : List Char → Option J)
    (win : Bool) (n : Nat) (ps cs : List (List Char)) (vs : List J)
    (hload : ps.map loads = vs.map some) (hnl : ∀ p ∈ ps, nl ∉ p)
    (hcs : ∀ l ∈ cs, l ≠ []) (hjoin : cs.flatten = framedStream ps)
    (hn : ps.length ≤ n) :
    (run_edgelink loads win n (chunkReads cs)).result = .ok vs :=
  run_chunked_framed loads win n ps cs vs hload hnl hcs hjoin hn

/-- Witness for C1: the frame of the value 1 split in the middle — the
separator in one read, the payload and terminator in the next — decodes
to exactly one message, 1. -/
theorem claim1_witness :
    (run_edgelink loads0 false 1 (chunkReads [[rs], ['1', nl]])).result = .ok [1] :=
  claim1_frame_reassembly_ordering loads0 false 1 [['1']] [[rs], ['1', nl]] [1]
    (by decide) (by decide) (by decide) (by decide) (by decide)

/-- C6: when the output stream closes after `m` well-formed frames with
`m < nexpected`, the invocation returns normally with a list of exactly
`m` decoded messages — an `ok` result, not an error. -/
theorem claim6_shortfall {J : Type} (loads : List Char → Option J) (win : Bool)
    (n : Nat) (ps cs : List (List Char)) (vs : List J)
    (hload : ps.map loads = vs.map some) (hnl : ∀ p ∈ ps, nl ∉ p)
    (hcs : ∀ l ∈ cs, l ≠ []) (hjoin : cs.flatten = framedStream ps)
    (hn : ps.length < n) :
    (run_edgelink loads win n (chunkReads cs)).result = .ok vs ∧
      vs.length = ps.length :=
  ⟨run_chunked_framed loads win n ps cs vs hload hnl hcs hjoin (by omega),
   (map_loads_length hload).symm⟩

/-- Witness for C6: one frame closes the stream while two messages were
expected; the facade returns the one-element list instead of raising. -/
theorem claim6_witness :
    (run_edgelink loads0 false 2 (chunkReads [frame ['1']])).result = .ok [1] ∧
      ([1] : List Nat).length = [['1']].length :=
  claim6_shortfall loads0 false 2 [['1']] [frame ['1']] [1]
    (by decide) (by decide) (by decide) (by decide) (by decide)

/-- C7: a stream beginning with arbitrary separator-free text yields only
the frames after the first separator — the same messages, in the same
order, as the stream without the leading noise — so no part of the noise
reaches any decoded payload. -/
theorem claim7_discard_leading_noise {J : Type} (loads : List Char → Option J)
    (win : Bool) (n : Nat) (junk : List Char) (ps : List (List Char)) (vs : List J)
    (hjunk : rs ∉ junk) (hload : ps.map loads = vs.map some)
    (hnl : ∀ p ∈ ps, nl ∉ p) (hn : ps.length ≤ n) :
    (run_edgelink loads win n [⟨0, junk ++ framedStream ps⟩]).result = .ok vs ∧
      yields (run_edgelink loads win n [⟨0, junk ++ framedStream ps⟩]).trace = vs ∧
      (run_edgelink loads win n [⟨0, framedStream ps⟩]).result = .ok vs := by
  obtain ⟨h1, h2⟩ := run_junk_framed loads win n junk ps vs hjunk hload hnl hn
  refine ⟨h1, h2, ?_⟩
  have := run_junk_framed loads win n [] ps vs (by simp) hload hnl hn
  simpa using this.1

/-- Witness for C7: a banner line (with its own newline, no separator)
precedes the frame of 1; the decoded output is exactly the list with 1. -/
theorem claim7_witness :
    (run_edgelink loads0 false 1
        [⟨0, ['l', 'o', 'g', nl] ++ framedStream [['1']]⟩]).result = .ok [1] ∧
      yields (run_edgelink loads0 false 1
        [⟨0, ['l', 'o', 'g', nl] ++ framedStream [['1']]⟩]).trace = [1] ∧
      (run_edgelink loads0 false 1 [⟨0, framedStream [['1']]⟩]).result = .ok [1] :=
  claim7_discard_leading_noise loads0 false 1 ['l', 'o', 'g', nl] [['1']] [1]
    (by decide) (by decide) (by decide) (by decide)

/-- Counterexample to C2 as stated: with `nexpected = 0` and one complete
frame available, the collector yields one message, not zero — the count
check runs only after a yield, so `yielded ≤ nexpected` fails at `k = 0`. -/
theorem claim2_counterexample :
    yields (read_json_from_process loads0 false 0 (chunkReads [frame ['1']])).trace
      = [1] := by
  have hstep : scanStep ([] ++ frame ['1']) = some (['1'], []) := by decide
  have hscan := innerScan_of_reach loads0 false 0 0 hstep
    (v := 1) (by decide) (by omega)
  unfold read_json_from_process chunkReads
  simp only [List.map_cons, List.map_nil]
  rw [runLoop_data loads0 false 0 [] [] 0 (by simp) (frame_ne_nil ['1']), hscan]
  simp [sigFor]

/-- C2 (amended: for `nexpected = k ≥ 1`; the code checks the count only
after a yield, so with `k = 0` the first available frame is still yielded):
with more than `k` frames available the collector yields exactly the first
`k` messages, performs the shutdown handshake immediately after the k-th,
and never consumes the read carrying the (k+1)-th frame; on any stream the
yield count never exceeds `k`, and the run ends on the reached path exactly
when the count equals `k`. -/
theorem claim2_count_termination {J : Type} (loads : List Char → Option J)
    (win : Bool) (k : Nat) (ps : List (List Char)) (vs : List J)
    (es2 : List ReadEvent) (hk : 1 ≤ k) (hmore : k < ps.length)
    (hload : ps.map loads = vs.map some) (hnl : ∀ p ∈ ps, nl ∉ p) :
    (read_json_from_process loads win k (chunkReads (ps.map frame))).outcome
        = .reached ∧
    yields (read_json_from_process loads win k (chunkReads (ps.map frame))).trace
        = vs.take k ∧
    (read_json_from_process loads win k (chunkReads (ps.map frame))).remaining
        = chunkReads ((ps.drop k).map frame) ∧
    (yields (read_json_from_process loads win k es2).trace).length ≤ k ∧
    ((read_json_from_process loads win k es2).outcome = .reached ↔
      (yields (read_json_from_process loads win k es2).trace).length = k) := by
  have hr : read_json_from_process loads win k (chunkReads (ps.map frame)) =
      ⟨(vs.take k).map .yield ++ [.signal (sigFor win), .waitChild], .reached,
       chunkReads ((ps.drop k).map frame)⟩ := by
    unfold read_json_from_process
    have := runLoop_frames_reach loads win k ps vs 0 [] hload hnl (by omega) (by omega)
    simpa using this
  have hcnt := runLoop_counter loads win k es2 [] 0 (by omega)
  refine ⟨by rw [hr], by rw [hr]; simp [← List.map_take], by rw [hr], ?_, ?_⟩
  · have := hcnt.1
    unfold read_json_from_process
    omega
  · have := hcnt.2
    unfold read_json_from_process
    constructor
    · intro h
      have h2 := this.mp h
      omega
    · intro h
      exact this.mpr (by omega)

/-- Witness for C2: two frames available, `k = 1`: the run reaches the
count on the first frame, yields exactly the message 1, leaves the second
read unconsumed; on the empty stream the count stays at zero. -/
theorem claim2_witness :
    (read_json_from_process loads0 false 1
        (chunkReads ([['1'], ['2']].map frame))).outcome = .reached ∧
    yields (read_json_from_process loads0 false 1
        (chunkReads ([['1'], ['2']].map frame))).trace = ([1, 2] : List Nat).take 1 ∧
    (read_json_from_process loads0 false 1
        (chunkReads ([['1'], ['2']].map frame))).remaining
      = chunkReads (([['1'], ['2']] : List (List Char)).drop 1 |>.map frame) ∧
    (yields (read_json_from_process loads0 false 1 []).trace).length ≤ 1 ∧
    ((read_json_from_process loads0 false 1 []).outcome = .reached ↔
      (yields (read_json_from_process loads0 false 1 []).trace).length = 1) :=
  claim2_count_termination loads0 false 1 [['1'], ['2']] [1, 2] []
    (by decide) (by decide) (by decide) (by decide)

/-- C3: a read exceeding the fixed 8-unit inactivity bound fails the
invocation with the stall error, after force-killing and reaping the
child; and the bound is per read, not per run — a run whose reads all
complete within the bound never produces the stall error, whatever its
total duration. -/
theorem claim3_stall_timeout {J : Type} (loads : List Char → Option J)
    (win : Bool) (n : Nat) (ps : List (List Char)) (vs : List J) (d : Nat)
    (l : List Char) (rest es2 : List ReadEvent)
    (hload : ps.map loads = vs.map some) (hnl : ∀ p ∈ ps, nl ∉ p)
    (hn : ps.length < n) (hd : timeoutBound < d)
    (hdur : ∀ e ∈ es2, e.dur ≤ timeoutBound) :
    (run_edgelink loads win n
        (chunkReads (ps.map frame) ++ ⟨d, l⟩ :: rest)).result =
      .error .stallTimeout ∧
    (run_edgelink loads win n
        (chunkReads (ps.map frame) ++ ⟨d, l⟩ :: rest)).trace =
      vs.map .yield ++ [.kill, .waitChild] ∧
    (run_edgelink loads win n es2).result ≠ .error .stallTimeout := by
  have hr0 : read_json_from_process loads win n
      (chunkReads (ps.map frame) ++ ⟨d, l⟩ :: rest) =
      ⟨vs.map .yield ++ [], .stallTimeout, rest⟩ := by
    unfold read_json_from_process
    have hpre := runLoop_frames_prefix loads win n ps vs 0
      (⟨d, l⟩ :: rest) hload hnl (by omega)
    rw [hpre, runLoop_stall_head loads win n rest [] (0 + ps.length) hd]
  refine ⟨?_, ?_, ?_⟩
  · rw [run_edgelink_of_stall loads win n _ (by rw [hr0])]
  · rw [run_edgelink_of_stall loads win n _ (by rw [hr0]), hr0]
    simp
  · intro hres
    have hout := (run_edgelink_stall_iff loads win n es2).mp hres
    obtain ⟨e, he, hgt⟩ := runLoop_stall_mem loads win n es2 [] 0 hout
    have := hdur e he
    omega

/-- Witness for C3: the very first read stalls (9 units against the
8-unit bound): the invocation fails with the stall error, the trace is
kill then wait, and the empty (all-within-bound) stream never stalls. -/
theorem claim3_witness :
    (run_edgelink loads0 false 1
        (chunkReads (([] : List (List Char)).map frame) ++ ⟨9, ['a']⟩ :: [])).result =
      .error .stallTimeout ∧
    (run_edgelink loads0 false 1
        (chunkReads (([] : List (List Char)).map frame) ++ ⟨9, ['a']⟩ :: [])).trace =
      ([] : List Nat).map .yield ++ [.kill, .waitChild] ∧
    (run_edgelink loads0 false 1 []).result ≠ .error .stallTimeout :=
  claim3_stall_timeout loads0 false 1 [] [] 9 ['a'] [] []
    (by decide) (by simp) (by decide) (by decide) (by simp)

/-- C4: a frame whose payload fails JSON parsing is fatal: after the good
frames before it are yielded, the invocation raises the decode error, and
the facade force-kills and reaps the child before the error reaches the
caller — the malformed frame is not silently skipped. -/
theorem claim4_decode_error_fatal {J : Type} (loads : List Char → Option J)
    (win : Bool) (n : Nat) (ps : List (List Char)) (vs : List J)
    (bad : List Char) (rest : List ReadEvent)
    (hload : ps.map loads = vs.map some) (hnl : ∀ p ∈ ps, nl ∉ p)
    (hbadnl : nl ∉ bad) (hbad : loads bad = none) (hn : ps.length < n) :
    (run_edgelink loads win n
        (chunkReads (ps.map frame) ++ ⟨0, frame bad⟩ :: rest)).result =
      .error .decodeError ∧
    (run_edgelink loads win n
        (chunkReads (ps.map frame) ++ ⟨0, frame bad⟩ :: rest)).trace =
      vs.map .yield ++ [.kill, .waitChild] :=
  run_bad_frame loads win n ps vs bad rest hload hnl hbadnl hbad hn

/-- Witness for C4: the single frame carries the unparsable payload
represented by the character x: the invocation fails with the decode error
and the trace is kill then wait. -/
theorem claim4_witness :
    (run_edgelink loads0 false 1
        (chunkReads (([] : List (List Char)).map frame) ++
          ⟨0, frame ['x']⟩ :: [])).result = .error .decodeError ∧
    (run_edgelink loads0 false 1
        (chunkReads (([] : List (List Char)).map frame) ++
          ⟨0, frame ['x']⟩ :: [])).trace =
      ([] : List Nat).map .yield ++ [.kill, .waitChild] :=
  claim4_decode_error_fatal loads0 false 1 [] [] ['x'] []
    (by decide) (by simp) (by decide) (by decide) (by decide)

/-- Counterexample to C5 as stated for the harness decode loop of
src/tests/__init__.py: a malformed frame aborts the invocation — the
well-formed frame following it is never decoded or yielded (zero yields,
decode error), contradicting that the scan continues past a parse
failure. -/
theorem claim5_counterexample :
    (run_edgelink loads0 false 2
        (chunkReads [framedStream [['x'], ['1']]])).result =
      .error .decodeError ∧
    yields (run_edgelink loads0 false 2
        (chunkReads [framedStream [['x'], ['1']]])).trace = [] := by
  have hstep : scanStep ([] ++ framedStream [['x'], ['1']]) =
      some (['x'], frame ['1']) := by decide
  have hscan : innerScan loads0 false 2 ([] ++ framedStream [['x'], ['1']]) 0 =
      .failed [] :=
    innerScan_of_bad loads0 false 2 0 hstep (by decide)
  have hr0 : read_json_from_process loads0 false 2
      (chunkReads [framedStream [['x'], ['1']]]) = ⟨[], .decodeError, []⟩ := by
    unfold read_json_from_process chunkReads
    simp only [List.map_cons, List.map_nil]
    rw [runLoop_data loads0 false 2 [] [] 0 (by simp) (by decide), hscan]
  have hfac := run_edgelink_of_decodeError loads0 false 2 _ (by rw [hr0])
  rw [hfac, hr0]
  constructor
  · rfl
  · simp

/-- C5 (amended: the loop removes a malformed frame from the buffer
before raising, and it is the earlier json-console-test.py revision of
`read_json_from_process` — which catches and prints the decode error —
whose scan continues past a parse failure: there, every well-formed
frame after a malformed one is still decoded and yielded, with a clean
buffer and the counter advanced only by the good frames; in the
tests/__init__.py harness the error propagates and stops the scan). -/
theorem claim5_skip_variant_continues {J : Type} (loads : List Char → Option J)
    (win : Bool) (n : Nat) (bad : List Char) (ps : List (List Char)) (vs : List J)
    (c : Nat) (hbadnl : nl ∉ bad) (hbad : loads bad = none)
    (hload : ps.map loads = vs.map some) (hnl : ∀ p ∈ ps, nl ∉ p)
    (hn : c + ps.length < n) :
    innerScanSkip loads win n (framedStream (bad :: ps)) c =
      .more [] (c + ps.length) (vs.map .yield) := by
  rw [innerScanSkip_bad_head loads win n bad ps c hbadnl hbad]
  exact innerScanSkip_framedStream loads win n ps vs c hload hnl hn

/-- Witness for the amended C5: in the json-console-test.py loop the
malformed x-frame is skipped and the following frame still decodes to 1. -/
theorem claim5_witness :
    innerScanSkip loads0 false 2 (framedStream [['x'], ['1']]) 0 =
      .more [] (0 + [['1']].length) (([1] : List Nat).map .yield) :=
  claim5_skip_variant_continues loads0 false 2 ['x'] [['1']] [1] 0
    (by decide) (by decide) (by decide) (by decide) (by decide)

theorem isYield_isSignal_false {J : Type} {e : Event J} (h : isYield e = true) :
    isSignal e = false := by
  cases e <;> simp [isYield, isSignal] at h ⊢

/-- C8: whenever the run ends because the requested count was reached,
the trace after the yields is exactly one cooperative-cancellation
signal — CTRL_BREAK_EVENT on Windows, SIGINT otherwise — followed by
waiting for the exit status of the child; exactly one signal is ever sent and
the child is never force-killed on this path. -/
theorem claim8_cooperative_shutdown {J : Type} (loads : List Char → Option J)
    (win : Bool) (n : Nat) (es : List ReadEvent)
    (h : (read_json_from_process loads win n es).outcome = .reached) :
    ∃ pre, (run_edgelink loads win n es).trace =
        pre ++ [.signal (if win then Sig.ctrlBreakEvent else Sig.sigint),
          .waitChild] ∧
      (∀ e ∈ pre, isYield e = true) ∧
      (run_edgelink loads win n es).trace.countP (fun e => isSignal e) = 1 ∧
      Event.kill ∉ (run_edgelink loads win n es).trace := by
  have hfac := run_edgelink_of_reached loads win n es h
  obtain ⟨pre, hpre, hall⟩ := runLoop_reached_shape loads win n es [] 0 h
  have htr : (run_edgelink loads win n es).trace =
      pre ++ [.signal (sigFor win), .waitChild] := by
    rw [hfac]
    exact hpre
  refine ⟨pre, ?_, hall, ?_, ?_⟩
  · rw [htr, sigFor]
  · rw [htr, List.countP_append]
    have hzero : pre.countP (fun e => isSignal e) = 0 := by
      rw [List.countP_eq_zero]
      intro e he
      simp [isYield_isSignal_false (hall e he)]
    rw [hzero]
    simp [List.countP_cons, isSignal]
  · rw [htr]
    intro hk
    rcases List.mem_append.mp hk with hk | hk
    · have := hall _ hk
      simp [isYield] at this
    · simp at hk

/-- Witness for C8: one frame with target one — the run reaches the count
and the trace ends with exactly one SIGINT followed by the wait. -/
theorem claim8_witness :
    ∃ pre, (run_edgelink loads0 false 1 (chunkReads [frame ['1']])).trace =
        pre ++ [.signal (if false then Sig.ctrlBreakEvent else Sig.sigint),
          .waitChild] ∧
      (∀ e ∈ pre, isYield e = true) ∧
      (run_edgelink loads0 false 1
        (chunkReads [frame ['1']])).trace.countP (fun e => isSignal e) = 1 ∧
      Event.kill ∉ (run_edgelink loads0 false 1 (chunkReads [frame ['1']])).trace :=
  claim8_cooperative_shutdown loads0 false 1 (chunkReads [frame ['1']]) (by
    have hstep : scanStep ([] ++ frame ['1']) = some (['1'], []) := by decide
    have hscan := innerScan_of_reach loads0 false 1 0 hstep
      (v := 1) (by decide) (by omega)
    unfold read_json_from_process chunkReads
    simp only [List.map_cons, List.map_nil]
    rw [runLoop_data loads0 false 1 [] [] 0 (by simp) (frame_ne_nil ['1']), hscan])

/-- C9: whenever the inner scan loop exits and hands its buffer back to
the outer read loop, the buffer holds no complete frame — no record
separator followed later by a line terminator — hence at most one
partial trailing frame of unconsumed separator state. -/
theorem claim9_buffer_invariant {J : Type} (loads : List Char → Option J)
    (win : Bool) (n : Nat) (buf b : List Char) (c c2 : Nat)
    (evs : List (Event J))
    (h : innerScan loads win n buf c = .more b c2 evs) :
    hasCompleteFrame b = false := by
  rw [hasCompleteFrame_eq_scanStep, innerScan_more_stuck loads win n buf c h]
  rfl

/-- Witness for C9: a buffer holding noise and a bare separator is left
by the scan exactly as it is, and indeed holds no complete frame. -/
theorem claim9_witness : hasCompleteFrame ['a', rs] = false :=
  claim9_buffer_invariant loads0 false 5 ['a', rs] ['a', rs] 0 0 []
    (innerScan_of_stuck loads0 false 5 0 (by decide))

/-- C10: an empty-payload frame — the record separator immediately
followed by the line terminator — is a decode error (`json.loads`
rejects the empty string) and is fatal: the invocation raises the decode
error after killing and reaping the child; the empty frame is neither
skipped nor yielded as a message. -/
theorem claim10_empty_payload_fatal {J : Type} (loads : List Char → Option J)
    (win : Bool) (n : Nat) (ps : List (List Char)) (vs : List J)
    (rest : List ReadEvent)
    (hload : ps.map loads = vs.map some) (hnl : ∀ p ∈ ps, nl ∉ p)
    (hempty : loads [] = none) (hn : ps.length < n) :
    (run_edgelink loads win n
        (chunkReads (ps.map frame) ++ ⟨0, [rs, nl]⟩ :: rest)).result =
      .error .decodeError ∧
    (run_edgelink loads win n
        (chunkReads (ps.map frame) ++ ⟨0, [rs, nl]⟩ :: rest)).trace =
      vs.map .yield ++ [.kill, .waitChild] := by
  have hfr : ([rs, nl] : List Char) = frame [] := rfl
  rw [hfr]
  exact run_bad_frame loads win n ps vs [] rest hload hnl (by simp) hempty hn

/-- Witness for C10: the stream consisting of the single empty frame
fails the invocation with the decode error, kill then wait in the trace. -/
theorem claim10_witness :
    (run_edgelink loads0 false 1
        (chunkReads (([] : List (List Char)).map frame) ++
          ⟨0, [rs, nl]⟩ :: [])).result = .error .decodeError ∧
    (run_edgelink loads0 false 1
        (chunkReads (([] : List (List Char)).map frame) ++
          ⟨0, [rs, nl]⟩ :: [])).trace =
      ([] : List Nat).map .yield ++ [.kill, .waitChild] :=
  claim10_empty_payload_fatal loads0 false 1 [] [] []
    (by decide) (by simp) (by decide) (by decide)

end RustRed
